import Mathlib

/-!
Shallow embedding of the track-reconciliation and playlist-file engine of
the spoty-sync repository, together with proofs about its published
specification.

Text is modelled as `List Char`.  JavaScript string primitives are embedded
as follows: `toLowerCase` as `Char.toLower` mapped over the list (ASCII
case folding, which is what the repository's inputs exercise), the regex
class `\s` as `Char.isWhitespace`, the regex class `\w` as ASCII
alphanumerics plus underscore, `split` and `join` as `List.splitOnP` and
`List.intercalate`, and JavaScript numbers as `ℚ` (all scores involved are
small rationals; floating-point rounding is abstracted away).  Rational
arithmetic is spelled through `mkRat` so that every definition evaluates
inside the kernel; the bridging lemmas `ratDiv_eq`, `ratAdd_eq` and
`ratSub_eq` identify these spellings with the ordinary field operations.
-/

namespace SpotySync

/-- Division `m / n` of two JavaScript numbers holding naturals. -/
def ratDiv (m n : Nat) : ℚ := mkRat m n

/-- Addition of two JavaScript numbers holding rationals. -/
def ratAdd (q r : ℚ) : ℚ := mkRat (q.num * r.den + r.num * q.den) (q.den * r.den)

/-- Subtraction of two JavaScript numbers holding rationals. -/
def ratSub (q r : ℚ) : ℚ := mkRat (q.num * r.den - r.num * q.den) (q.den * r.den)

/-! ### Text normalization (src/src/app/api/sync/route.ts,
src/src/app/api/files/scan/route.ts) -/

/-- Character class `\w` of the source's regexes: ASCII letters, digits,
and the underscore. -/
def wordChar (c : Char) : Bool :=
  c.isAlphanum || c = '_'

/-- One step of collapsing whitespace runs: `prevWs` records whether the
preceding character was whitespace.  Models the regex replacement
`replace(/\s+/g, ' ')` of the source. -/
def collapseWsAux : Bool → List Char → List Char
  | _, [] => []
  | prevWs, c :: cs =>
    if c.isWhitespace then
      if prevWs then collapseWsAux true cs
      else ' ' :: collapseWsAux true cs
    else c :: collapseWsAux false cs

/-- Collapse every whitespace run to a single space,
as `replace(/\s+/g, ' ')` does. -/
def collapseWs (cs : List Char) : List Char :=
  collapseWsAux false cs

/-- JavaScript `trim()`: drop whitespace from both ends. -/
def trimLine (cs : List Char) : List Char :=
  (cs.dropWhile Char.isWhitespace).rdropWhile Char.isWhitespace

/-- Shared tail of the normalization pipelines of `normalizeTrackInfo`
(src/src/app/api/sync/route.ts) and `normalizeFileName`
(src/src/app/api/files/scan/route.ts), applied after lower-casing:
`replace(/[^\w\s]/g, '').replace(/\s+/g, ' ').trim()`. -/
def normalizeAfterLower (s : List Char) : List Char :=
  trimLine (collapseWs (s.filter (fun c => wordChar c || c.isWhitespace)))

/-- Generic text normalization:
`text.toLowerCase().replace(/[^\w\s]/g, '').replace(/\s+/g, ' ').trim()`. -/
def normalizeText (s : List Char) : List Char :=
  normalizeAfterLower (s.map Char.toLower)

/-- Extension removed by `normalizeFileName`. -/
def mp3Suffix : List Char := ".mp3".toList

/-- Replacement `replace(/\.mp3$/, '')` on an already lower-cased name. -/
def removeMp3Suffix (l : List Char) : List Char :=
  if mp3Suffix <:+ l then l.take (l.length - 4) else l

/-- Function `normalizeFileName` of src/src/app/api/files/scan/route.ts:
lower-case, strip a trailing `.mp3`, strip special characters, collapse
whitespace, trim.  (`Char.toLower` is idempotent, so feeding the
lower-cased name into `normalizeAfterLower` reproduces the source's
pipeline exactly.) -/
def normalizeFileName (filename : List Char) : List Char :=
  normalizeAfterLower (removeMp3Suffix (filename.map Char.toLower))

/-! ### The similarity scorer (src/src/app/api/sync/route.ts and
src/src/services/file-matching.ts; the two copies are identical) -/

/-- Tokenization `split(' ')` followed by `filter(word => word.length > 1)`. -/
def tokenize (s : List Char) : List (List Char) :=
  (s.splitOnP (fun c => c = ' ')).filter (fun w => 1 < w.length)

/-- One row update of the `levenshteinDistance` dynamic program:
`prevRow` is the window of the previous matrix row starting at the
diagonal entry, `left` the entry just computed in the current row. -/
def levRowAux (c2 : Char) : List Char → List Nat → Nat → List Nat
  | [], _, _ => []
  | _ :: _, [], _ => []
  | c1 :: cs, diag :: rest, left =>
    let cur := if c2 = c1 then diag else min (min diag (rest.headD 0)) left + 1
    cur :: levRowAux c2 cs rest cur

/-- Function `levenshteinDistance(str1, str2)`: the standard
insert/delete/substitute dynamic program of the source, computed row by
row (row `i` of the source's `matrix` corresponds to the `i`-th fold
step). -/
def levenshteinDistance (str1 str2 : List Char) : Nat :=
  let row0 : List Nat := List.range (str1.length + 1)
  let finalRow := str2.foldl
    (fun prev c2 => (prev.headD 0 + 1) :: levRowAux c2 str1 prev (prev.headD 0 + 1)) row0
  finalRow.getLastD 0

/-- Cap `Math.min(1.0, q)` used on the bonus scores. -/
def capAtOne (q : ℚ) : ℚ :=
  if 1 ≤ q then 1 else q

/-- Function `isWordMatch(word1, word2)`: equality; or substring
containment for words of length ≥ 3; or, when the lengths differ by at
most 2, normalized Levenshtein similarity `1 - distance/maxLength ≥ 0.8`. -/
def isWordMatch (word1 word2 : List Char) : Bool :=
  if word1 = word2 then true
  else if 3 ≤ word1.length ∧ 3 ≤ word2.length ∧ (word2 <:+: word1 ∨ word1 <:+: word2) then true
  else if ((word1.length : ℤ) - (word2.length : ℤ)).natAbs ≤ 2 then
    decide (mkRat 4 5 ≤ ratSub 1 (ratDiv (levenshteinDistance word1 word2)
      (Nat.max word1.length word2.length)))
  else false

/-- Function `calculateMatchScore(normalizedTrack, normalizedFilename)`:
the fraction of track words having a matching file word, plus a bonus of
0.3 for exact equality of the full strings or 0.2 for substring
containment, capped at 1. -/
def calculateMatchScore (normalizedTrack normalizedFilename : List Char) : ℚ :=
  let trackWords := tokenize normalizedTrack
  let fileWords := tokenize normalizedFilename
  if trackWords.length = 0 ∨ fileWords.length = 0 then 0
  else
    let matchedWords :=
      (trackWords.filter (fun tw => fileWords.any (fun fw => isWordMatch tw fw))).length
    let score : ℚ := ratDiv matchedWords trackWords.length
    if normalizedTrack = normalizedFilename then capAtOne (ratAdd score (mkRat 3 10))
    else if normalizedTrack <:+: normalizedFilename ∨ normalizedFilename <:+: normalizedTrack then
      capAtOne (ratAdd score (mkRat 1 5))
    else score

/-! ### The track matcher (src/src/app/api/sync/route.ts; the private
methods of src/src/services/file-matching.ts are identical) -/

/-- Remote track data used by the matcher: `id`, `name`, the artist
names (the source reads `artists.map(a => a.name)`), and `duration_ms`. -/
structure SpotifyTrack where
  id : List Char
  name : List Char
  artists : List (List Char)
  duration_ms : Nat
deriving DecidableEq, Repr

/-- Scanned local file record produced by
src/src/app/api/files/scan/route.ts. -/
structure MP3File where
  name : List Char
  path : List Char
  size : Nat
  normalizedName : List Char
deriving DecidableEq, Repr

/-- Function `normalizeTrackInfo(track)`: normalize
`artists.map(a => a.name).join(' ') + ' ' + track.name`. -/
def normalizeTrackInfo (track : SpotifyTrack) : List Char :=
  normalizeText (List.intercalate [' '] track.artists ++ [' '] ++ track.name)

/-- Loop body of `findBestMatch`: walk the files keeping the best
accepted candidate (`bestMatch`) and its score (`highestScore`); a file
is accepted when its score strictly exceeds the running maximum and
reaches the 0.6 minimum. -/
def findBestMatchLoop (normalizedTrack : List Char) :
    List MP3File → Option (List Char × ℚ) → ℚ → Option (List Char × ℚ)
  | [], bestMatch, _ => bestMatch
  | file :: rest, bestMatch, highestScore =>
    let score := calculateMatchScore normalizedTrack file.normalizedName
    if highestScore < score ∧ mkRat 3 5 ≤ score then
      findBestMatchLoop normalizedTrack rest (some (file.path, score)) score
    else
      findBestMatchLoop normalizedTrack rest bestMatch highestScore

/-- Function `findBestMatch(track, mp3Files)` of
src/src/app/api/sync/route.ts. -/
def findBestMatch (track : SpotifyTrack) (mp3Files : List MP3File) :
    Option (List Char × ℚ) :=
  findBestMatchLoop (normalizeTrackInfo track) mp3Files none 0

/-- Characters rejected by `generateExpectedFilename`'s regex
`[<>:"/\\|?*]`. -/
def invalidFileNameChar (c : Char) : Bool :=
  c = '<' || c = '>' || c = ':' || c = '"' || c = '/' || c = '\\' || c = '|' || c = '?' || c = '*'

/-- Function `generateExpectedFilename(track)`: clean
`artists.join(', ') + ' - ' + title` and append `.mp3`. -/
def generateExpectedFilename (track : SpotifyTrack) : List Char :=
  trimLine (collapseWs ((List.intercalate (", ".toList) track.artists ++ " - ".toList
    ++ track.name).filter (fun c => !invalidFileNameChar c))) ++ mp3Suffix

/-- Link `https://open.spotify.com/track/` followed by the track id. -/
def spotifyTrackUrl (track : SpotifyTrack) : List Char :=
  "https://open.spotify.com/track/".toList ++ track.id

/-- A row of the matcher's output (the `LocalTrackMatch` interface). -/
structure LocalTrackMatch where
  spotifyTrack : SpotifyTrack
  localFilePath : Option (List Char)
  isMatched : Bool
  matchScore : Option ℚ
  expectedFilename : List Char
  spotifyUrl : List Char
deriving DecidableEq, Repr

/-- Loop body of `matchTracksToFiles`: the record pushed for one track
(`localFilePath` and `matchScore` are absent exactly when `findBestMatch`
returned `null`, and `isMatched` is `!!match`). -/
def trackMatchRecord (mp3Files : List MP3File) (track : SpotifyTrack) : LocalTrackMatch :=
  let m := findBestMatch track mp3Files
  { spotifyTrack := track
    localFilePath := m.map Prod.fst
    isMatched := m.isSome
    matchScore := m.map Prod.snd
    expectedFilename := generateExpectedFilename track
    spotifyUrl := spotifyTrackUrl track }

/-- Function `matchTracksToFiles(spotifyTracks, mp3Files, ...)`: one
`LocalTrackMatch` per track, in order. -/
def matchTracksToFiles (spotifyTracks : List SpotifyTrack) (mp3Files : List MP3File) :
    List LocalTrackMatch :=
  spotifyTracks.map (trackMatchRecord mp3Files)

/-- Matching strategy modelled from the spec's words (section 4.3,
"Exact/substring strategy"), for comparison with `findBestMatch`: accept
the first file whose normalized name equals the normalized track string
(score 1.0), else the first whose normalized name is a substring of or
contains the track string (score 0.8), with no minimum-score gate. -/
def exactOrSubstringMatch (normalizedTrack : List Char) (mp3Files : List MP3File) :
    Option (List Char × ℚ) :=
  match mp3Files.find? (fun f => decide (f.normalizedName = normalizedTrack)) with
  | some f => some (f.path, 1)
  | none =>
    match mp3Files.find? (fun f =>
        decide (f.normalizedName <:+: normalizedTrack ∨ normalizedTrack <:+: f.normalizedName)) with
    | some f => some (f.path, mkRat 4 5)
    | none => none

/-! ### The playlist codec (src/src/app/api/files/m3u/route.ts; the
`parseM3UContent` copy in src/src/app/api/files/generate-m3u/route.ts is
identical) -/

/-- A parsed playlist entry (the `M3UTrack` interface). -/
structure M3UTrack where
  extinf : Option (List Char)
  filePath : List Char
deriving DecidableEq, Repr

/-- Header line token `#EXTM3U`. -/
def headerToken : List Char := "#EXTM3U".toList

/-- Extended-info prefix `#EXTINF:`. -/
def extinfToken : List Char := "#EXTINF:".toList

/-- Line splitting of `parseM3UContent`:
`content.split('\n').map(line => line.trim()).filter(line => line)`. -/
def toLines (content : List Char) : List (List Char) :=
  ((content.splitOnP (fun c => c = '\n')).map trimLine).filter (fun l => !l.isEmpty)

/-- Line loop of `parseM3UContent`, carrying the pending `currentExtinf`. -/
def parseM3ULines : Option (List Char) → List (List Char) → List M3UTrack
  | _, [] => []
  | cur, line :: rest =>
    if headerToken <+: line then parseM3ULines cur rest
    else if extinfToken <+: line then parseM3ULines (some line) rest
    else if ['#'] <+: line then parseM3ULines cur rest
    else ⟨cur, line⟩ :: parseM3ULines none rest

/-- Function `parseM3UContent(content)` of
src/src/app/api/files/m3u/route.ts. -/
def parseM3UContent (content : List Char) : List M3UTrack :=
  parseM3ULines none (toLines content)

/-- Lines a track contributes to the merged output: its extinf line when
present, then its path line. -/
def trackLines (t : M3UTrack) : List (List Char) :=
  match t.extinf with
  | some e => [e, t.filePath]
  | none => [t.filePath]

/-- Output generation of `mergeM3UContent`: the `#EXTM3U` header followed
by each track's lines, joined with newlines. -/
def serializeTracks (tracks : List M3UTrack) : List Char :=
  List.intercalate ['\n'] (headerToken :: (tracks.map trackLines).flatten)

/-- Model of `Map.set(track.filePath, track)` on an insertion-ordered
map: replace the entry holding the same key in place, or append the new
entry at the end. -/
def mapSet : List M3UTrack → M3UTrack → List M3UTrack
  | [], t => [t]
  | u :: rest, t => if u.filePath = t.filePath then t :: rest else u :: mapSet rest t

/-- Function `mergeM3UContent(existingContent, newContent)`: parse both
texts, feed existing then new entries into a map keyed by the raw file
path, and serialize the map's values in insertion order. -/
def mergeM3UContent (existingContent newContent : List Char) : List Char :=
  let existingTracks := parseM3UContent existingContent
  let newTracks := parseM3UContent newContent
  let trackMap := (existingTracks ++ newTracks).foldl mapSet []
  serializeTracks trackMap

/-! ### Path-separator normalization (src/src/app/api/files/generate-m3u/route.ts) -/

/-- Path-separator normalization `replace(/\\/g, '/')`, applied to
playlist paths by the popularity counter `countSongAppearances`. -/
def sepNormalize (p : List Char) : List Char :=
  p.map (fun c => if c = '\\' then '/' else c)

/-! ## Well-formedness of parsed entries -/

/-- Any line stored in a parsed entry: non-empty, trim-fixed,
newline-free. -/
def wfLine (l : List Char) : Prop :=
  l ≠ [] ∧ trimLine l = l ∧ '\n' ∉ l

/-- Shape invariant of entries produced by `parseM3UContent`: the path
line is a well-formed line not starting with `#`, and the extinf line,
when present, is a well-formed line starting with `#EXTINF:`. -/
def wfTrack (t : M3UTrack) : Prop :=
  (wfLine t.filePath ∧ ¬ ['#'] <+: t.filePath) ∧
  ∀ e, t.extinf = some e → wfLine e ∧ extinfToken <+: e

/-! ## The insertion-ordered map model behind `mergeM3UContent` -/

/-- Insert a batch of tracks into the table, in order (the two `for`
loops of `mergeM3UContent`). -/
def insertAll (T : List M3UTrack) (ts : List M3UTrack) : List M3UTrack :=
  ts.foldl mapSet T

/-- Lookup of the entry stored under a path key. -/
def tableLookup (T : List M3UTrack) (k : List Char) : Option M3UTrack :=
  T.find? (fun u => decide (u.filePath = k))

/-- The last track of a batch carrying the given path key (the one whose
`Map.set` wins). -/
def lastPut (ts : List M3UTrack) (k : List Char) : Option M3UTrack :=
  ts.reverse.find? (fun u => decide (u.filePath = k))

/-- First-some choice on options. -/
def orO (a b : Option M3UTrack) : Option M3UTrack :=
  match a with
  | some v => some v
  | none => b

/-! ## Concrete inputs used by the counterexamples and witnesses -/

/-- New playlist text holding the same path under both separator
conventions. -/
def sepNewContent : List Char := "dir\\song.mp3\ndir/song.mp3".toList

/-- Track normalizing to `aa bb cc dd ee`. -/
def altTrack : SpotifyTrack :=
  ⟨"t1".toList, "dd ee".toList, ["aa".toList, "bb".toList, "cc".toList], 200⟩

/-- Local file whose normalized name `aa` is a substring of
`altTrack`'s normalized string. -/
def altFile : MP3File :=
  ⟨"aa.mp3".toList, "/music/aa.mp3".toList, 7, "aa".toList⟩

/-- Track normalizing to `ab cd`. -/
def exactTrack : SpotifyTrack := ⟨"t2".toList, "ab cd".toList, [], 100⟩

/-- Local file whose normalized name equals `exactTrack`'s normalized
string. -/
def exactFile : MP3File :=
  ⟨"ab cd.mp3".toList, "/music/ab cd.mp3".toList, 3, "ab cd".toList⟩

/-- An entry whose path line would parse back as a comment. -/
def hashEntry : M3UTrack := ⟨none, "#x".toList⟩

/-- Well-formed entries for the round-trip witness. -/
def roundtripEntries : List M3UTrack :=
  [⟨some ("#EXTINF:5,A".toList), "x.mp3".toList⟩, ⟨none, "y.mp3".toList⟩]

/-- A playlist text for the parse-invariant witness. -/
def demoPlaylist : List Char :=
  "#EXTM3U\n#EXTINF:200,A - B\nEnglish/song.mp3".toList

/-- The entry `demoPlaylist` parses to. -/
def demoParsedTrack : M3UTrack :=
  ⟨some ("#EXTINF:200,A - B".toList), "English/song.mp3".toList⟩

instance (l : List Char) : Decidable (wfLine l) := by
  unfold wfLine
  infer_instance

instance (t : M3UTrack) : Decidable (wfTrack t) :=
  match t with
  | ⟨none, fp⟩ =>
    decidable_of_iff (wfLine fp ∧ ¬ ['#'] <+: fp) (by unfold wfTrack; simp)
  | ⟨some e, fp⟩ =>
    decidable_of_iff ((wfLine fp ∧ ¬ ['#'] <+: fp) ∧ (wfLine e ∧ extinfToken <+: e))
      (by unfold wfTrack; simp)

/-! ## Basic lemmas on the string primitives -/

theorem ratDiv_eq (m n : Nat) : ratDiv m n = (m : ℚ) / (n : ℚ) := by
  rw [ratDiv, Rat.mkRat_eq_div]
  push_cast
  rfl

theorem ratAdd_eq (q r : ℚ) : ratAdd q r = q + r := by
  rw [ratAdd, Rat.mkRat_eq_div]
  push_cast
  conv_rhs => rw [← Rat.num_div_den q, ← Rat.num_div_den r]
  rw [div_add_div _ _ (by positivity) (by positivity)]
  ring_nf

theorem ratSub_eq (q r : ℚ) : ratSub q r = q - r := by
  rw [ratSub, Rat.mkRat_eq_div]
  push_cast
  conv_rhs => rw [← Rat.num_div_den q, ← Rat.num_div_den r]
  rw [div_sub_div _ _ (by positivity) (by positivity)]
  ring_nf

theorem dropWhile_eq_self_mono {p : Char → Bool} {l l' : List Char}
    (hl : l.dropWhile p = l) (hp : l' <+: l) : l'.dropWhile p = l' := by
  cases l' with
  | nil => rfl
  | cons a t =>
    obtain ⟨r, hr⟩ := hp
    cases l with
    | nil => simp at hr
    | cons b s =>
      have hab : a = b := by
        have := congrArg (fun x => x.headD a) hr
        simpa using this
      subst hab
      rw [List.dropWhile_cons] at hl ⊢
      by_cases hpa : p a
      · rw [if_pos hpa] at hl
        have := congrArg List.length hl
        have hle : (s.dropWhile p).length ≤ s.length :=
          (List.dropWhile_suffix p).sublist.length_le
        simp at this
        omega
      · rw [if_neg hpa]

theorem trimLine_idem (l : List Char) : trimLine (trimLine l) = trimLine l := by
  unfold trimLine
  rw [dropWhile_eq_self_mono (List.dropWhile_idempotent _ _)
    (List.rdropWhile_prefix _ _), List.rdropWhile_idempotent]

theorem mem_trimLine {c : Char} {l : List Char} (h : c ∈ trimLine l) : c ∈ l := by
  unfold trimLine at h
  exact (List.dropWhile_suffix _).sublist.subset
    ((List.rdropWhile_prefix _ _).sublist.subset h)

theorem mem_splitOnP_not {p : Char → Bool} :
    ∀ {cs l : List Char}, l ∈ cs.splitOnP p → ∀ x ∈ l, ¬ p x := by
  intro cs
  induction cs with
  | nil =>
    intro l hl x hx
    rw [List.splitOnP_nil] at hl
    simp at hl
    subst hl
    simp at hx
  | cons c cs ih =>
    intro l hl x hx
    rw [List.splitOnP_cons] at hl
    by_cases hpc : p c
    · rw [if_pos hpc] at hl
      rcases List.mem_cons.mp hl with h | h
      · subst h; simp at hx
      · exact ih h x hx
    · rw [if_neg hpc] at hl
      obtain ⟨h, t, ht⟩ := List.exists_cons_of_ne_nil (List.splitOnP_ne_nil p cs)
      rw [ht] at hl
      simp only [List.modifyHead, List.mem_cons] at hl
      rcases hl with h1 | h1
      · subst h1
        rcases List.mem_cons.mp hx with h2 | h2
        · subst h2; exact hpc
        · exact ih (ht ▸ List.mem_cons_self h t) x h2
      · exact ih (ht ▸ List.mem_cons_of_mem h h1) x hx

/-- Every line produced by `toLines` is non-empty, fixed by `trim`, and
newline-free. -/
theorem toLines_wf {content l : List Char} (h : l ∈ toLines content) :
    l ≠ [] ∧ trimLine l = l ∧ '\n' ∉ l := by
  unfold toLines at h
  obtain ⟨hmem, hne⟩ := List.mem_filter.mp h
  obtain ⟨raw, hraw, hl⟩ := List.mem_map.mp hmem
  subst hl
  refine ⟨by simpa using hne, trimLine_idem raw, fun hc => ?_⟩
  exact mem_splitOnP_not hraw '\n' (mem_trimLine hc) (by decide)

theorem parseM3ULines_wf :
    ∀ (lines : List (List Char)) (cur : Option (List Char)),
      (∀ l ∈ lines, wfLine l) →
      (∀ e, cur = some e → wfLine e ∧ extinfToken <+: e) →
      ∀ t ∈ parseM3ULines cur lines, wfTrack t := by
  intro lines
  induction lines with
  | nil => intro cur _ _ t ht; simp [parseM3ULines] at ht
  | cons line rest ih =>
    intro cur hlines hcur t ht
    rw [parseM3ULines] at ht
    by_cases h1 : headerToken <+: line
    · rw [if_pos h1] at ht
      exact ih cur (fun l hl => hlines l (List.mem_cons_of_mem _ hl)) hcur t ht
    · rw [if_neg h1] at ht
      by_cases h2 : extinfToken <+: line
      · rw [if_pos h2] at ht
        refine ih (some line) (fun l hl => hlines l (List.mem_cons_of_mem _ hl)) ?_ t ht
        intro e he
        cases he
        exact ⟨hlines line (List.mem_cons_self _ _), h2⟩
      · rw [if_neg h2] at ht
        by_cases h3 : ['#'] <+: line
        · rw [if_pos h3] at ht
          exact ih cur (fun l hl => hlines l (List.mem_cons_of_mem _ hl)) hcur t ht
        · rw [if_neg h3] at ht
          rcases List.mem_cons.mp ht with h | h
          · subst h
            exact ⟨⟨hlines line (List.mem_cons_self _ _), h3⟩, hcur⟩
          · refine ih none (fun l hl => hlines l (List.mem_cons_of_mem _ hl)) ?_ t h
            intro e he
            cases he

/-- Every entry produced by `parseM3UContent` satisfies the shape
invariant. -/
theorem parseM3UContent_wf {content : List Char} :
    ∀ t ∈ parseM3UContent content, wfTrack t := by
  intro t ht
  refine parseM3ULines_wf (toLines content) none ?_ ?_ t ht
  · intro l hl
    exact toLines_wf hl
  · intro e he
    cases he

/-! ## The serialize / parse round trip -/

theorem intercalate_two (sep l l' : List Char) (ls : List (List Char)) :
    List.intercalate sep (l :: l' :: ls) = l ++ sep ++ List.intercalate sep (l' :: ls) := by
  simp [List.intercalate]

theorem splitOnP_intercalate_sep {p : Char → Bool} {sep : Char} (hsep : p sep = true) :
    ∀ (ls : List (List Char)), ls ≠ [] → (∀ l ∈ ls, ∀ x ∈ l, ¬ p x) →
      ([sep].intercalate ls).splitOnP p = ls := by
  intro ls
  induction ls with
  | nil => intro h; exact absurd rfl h
  | cons l ls ih =>
    intro _ hno
    cases ls with
    | nil =>
      simp only [List.intercalate]
      simp only [List.intersperse, List.flatten, List.append_nil]
      exact List.splitOnP_eq_single _ _ (hno l (List.mem_cons_self _ _))
    | cons l' ls' =>
      rw [intercalate_two, List.append_assoc, List.singleton_append,
        List.splitOnP_first _ _ (hno l (List.mem_cons_self _ _)) sep hsep,
        ih (by simp) (fun m hm => hno m (List.mem_cons_of_mem _ hm))]

theorem toLines_of_wf {ls : List (List Char)} (hne : ls ≠ [])
    (h : ∀ l ∈ ls, l ≠ [] ∧ trimLine l = l ∧ '\n' ∉ l) :
    toLines (List.intercalate ['\n'] ls) = ls := by
  unfold toLines
  rw [splitOnP_intercalate_sep (by decide) ls hne ?side]
  case side =>
    intro l hl x hx hpx
    have : x = '\n' := by simpa using hpx
    subst this
    exact (h l hl).2.2 hx
  rw [List.map_congr_left (fun l hl => (h l hl).2.1), List.map_id',
    List.filter_eq_self.mpr ?all]
  case all =>
    intro l hl
    simpa using (h l hl).1

theorem header_wfLine : wfLine headerToken ∧ ¬ '\n' ∈ headerToken := by
  refine ⟨⟨by decide, by decide, by decide⟩, by decide⟩

theorem trackLines_wf {t : M3UTrack} (ht : wfTrack t) :
    ∀ l ∈ trackLines t, l ≠ [] ∧ trimLine l = l ∧ '\n' ∉ l := by
  intro l hl
  rcases ht with ⟨⟨hfp, _⟩, hext⟩
  unfold trackLines at hl
  cases he : t.extinf with
  | some e =>
    rw [he] at hl
    rcases (hext e he) with ⟨hwf, _⟩
    rcases List.mem_cons.mp hl with h | h
    · subst h; exact hwf
    · rcases List.mem_cons.mp h with h1 | h1
      · subst h1; exact hfp
      · simp at h1
  | none =>
    rw [he] at hl
    rcases List.mem_cons.mp hl with h | h
    · subst h; exact hfp
    · simp at h

theorem not_header_prefix_of_extinf {e : List Char} (h : extinfToken <+: e) :
    ¬ headerToken <+: e := by
  intro hh
  have : headerToken <+: extinfToken :=
    List.prefix_of_prefix_length_le hh h (by decide)
  revert this
  decide

theorem not_hash_prefix_elim {l : List Char} (h : ¬ ['#'] <+: l) :
    ¬ headerToken <+: l ∧ ¬ extinfToken <+: l := by
  constructor
  · intro hh
    exact h ((by decide : ['#'] <+: headerToken).trans hh)
  · intro hh
    exact h ((by decide : ['#'] <+: extinfToken).trans hh)

theorem parseM3ULines_trackLines :
    ∀ (tracks : List M3UTrack), (∀ t ∈ tracks, wfTrack t) →
      parseM3ULines none ((tracks.map trackLines).flatten) = tracks := by
  intro tracks
  induction tracks with
  | nil => intro _; simp [parseM3ULines]
  | cons t ts ih =>
    intro hwf
    have hwt := hwf t (List.mem_cons_self _ _)
    obtain ⟨⟨hfp, hhash⟩, hext⟩ := hwt
    obtain ⟨hnh, hne⟩ := not_hash_prefix_elim hhash
    simp only [List.map_cons, List.flatten_cons]
    cases he : t.extinf with
    | some e =>
      obtain ⟨hwfe, hpre⟩ := hext e he
      rw [trackLines, he]
      show parseM3ULines none (e :: t.filePath :: (ts.map trackLines).flatten) = t :: ts
      rw [parseM3ULines, if_neg (not_header_prefix_of_extinf hpre), if_pos hpre,
        parseM3ULines, if_neg hnh, if_neg hne, if_neg hhash]
      rw [ih (fun u hu => hwf u (List.mem_cons_of_mem _ hu))]
      have : t = ⟨some e, t.filePath⟩ := by
        cases t
        simp at he
        rw [he]
      rw [← this]
    | none =>
      rw [trackLines, he]
      show parseM3ULines none (t.filePath :: (ts.map trackLines).flatten) = t :: ts
      rw [parseM3ULines, if_neg hnh, if_neg hne, if_neg hhash]
      rw [ih (fun u hu => hwf u (List.mem_cons_of_mem _ hu))]
      have : t = ⟨none, t.filePath⟩ := by
        cases t
        simp at he
        rw [he]
      rw [← this]

/-- Round trip: parsing the serialized track list recovers it exactly,
whenever each track satisfies the parse-shape invariant. -/
theorem parse_serializeTracks {tracks : List M3UTrack}
    (hwf : ∀ t ∈ tracks, wfTrack t) :
    parseM3UContent (serializeTracks tracks) = tracks := by
  unfold parseM3UContent serializeTracks
  rw [toLines_of_wf (by simp) ?wf]
  case wf =>
    intro l hl
    rcases List.mem_cons.mp hl with h | h
    · subst h
      exact ⟨header_wfLine.1.1, header_wfLine.1.2.1, header_wfLine.1.2.2⟩
    · obtain ⟨ll, hll, hmem⟩ := List.mem_flatten.mp h
      obtain ⟨t, htmem, hmap⟩ := List.mem_map.mp hll
      exact trackLines_wf (hwf t htmem) l (hmap ▸ hmem)
  rw [parseM3ULines, if_pos (by decide : headerToken <+: headerToken)]
  exact parseM3ULines_trackLines tracks hwf

theorem keys_mapSet (T : List M3UTrack) (t : M3UTrack) :
    (mapSet T t).map M3UTrack.filePath =
      if t.filePath ∈ T.map M3UTrack.filePath then T.map M3UTrack.filePath
      else T.map M3UTrack.filePath ++ [t.filePath] := by
  induction T with
  | nil => simp [mapSet]
  | cons u rest ih =>
    by_cases h : u.filePath = t.filePath
    · simp [mapSet, h]
    · simp only [mapSet, if_neg h, List.map_cons, ih]
      by_cases hmem : t.filePath ∈ rest.map M3UTrack.filePath
      · rw [if_pos hmem, if_pos (List.mem_cons_of_mem _ hmem)]
      · rw [if_neg hmem, if_neg ?notmem]
        case notmem =>
          intro hc
          rcases List.mem_cons.mp hc with h1 | h1
          · exact h h1.symm
          · exact hmem h1
        rfl

theorem tableLookup_nil (k : List Char) : tableLookup [] k = none := rfl

theorem tableLookup_cons (u : M3UTrack) (T : List M3UTrack) (k : List Char) :
    tableLookup (u :: T) k = if u.filePath = k then some u else tableLookup T k := by
  by_cases h : u.filePath = k
  · rw [if_pos h, tableLookup, List.find?_cons_of_pos _ (by simpa using h)]
  · rw [if_neg h, tableLookup, List.find?_cons_of_neg _ (by simpa using h)]
    rfl

theorem lookup_mapSet (T : List M3UTrack) (t : M3UTrack) (k : List Char) :
    tableLookup (mapSet T t) k = if k = t.filePath then some t else tableLookup T k := by
  induction T with
  | nil =>
    show tableLookup [t] k = _
    rw [tableLookup_cons, tableLookup_nil]
    by_cases h : k = t.filePath
    · rw [if_pos h.symm, if_pos h]
    · rw [if_neg (fun hc => h hc.symm), if_neg h]
  | cons u rest ih =>
    by_cases h : u.filePath = t.filePath
    · rw [mapSet, if_pos h, tableLookup_cons, tableLookup_cons]
      by_cases hk : k = t.filePath
      · rw [if_pos (show t.filePath = k from hk.symm), if_pos hk]
      · rw [if_neg (show ¬ t.filePath = k from fun hc => hk hc.symm), if_neg hk,
          if_neg (show ¬ u.filePath = k from fun hc => hk (hc.symm.trans h))]
    · rw [mapSet, if_neg h, tableLookup_cons, ih, tableLookup_cons]
      by_cases hk : k = t.filePath
      · rw [if_pos hk, if_pos hk,
          if_neg (show ¬ u.filePath = k from fun hc => h (hc.trans hk))]
      · rw [if_neg hk, if_neg hk]

theorem mem_mapSet {T : List M3UTrack} {t u : M3UTrack} (h : u ∈ mapSet T t) :
    u ∈ T ∨ u = t := by
  induction T with
  | nil =>
    simp [mapSet] at h
    exact Or.inr h
  | cons v rest ih =>
    rw [mapSet] at h
    by_cases hv : v.filePath = t.filePath
    · rw [if_pos hv] at h
      rcases List.mem_cons.mp h with h1 | h1
      · exact Or.inr h1
      · exact Or.inl (List.mem_cons_of_mem _ h1)
    · rw [if_neg hv] at h
      rcases List.mem_cons.mp h with h1 | h1
      · exact Or.inl (h1 ▸ List.mem_cons_self _ _)
      · rcases ih h1 with h2 | h2
        · exact Or.inl (List.mem_cons_of_mem _ h2)
        · exact Or.inr h2

theorem nodupKeys_mapSet {T : List M3UTrack} (t : M3UTrack)
    (h : (T.map M3UTrack.filePath).Nodup) :
    ((mapSet T t).map M3UTrack.filePath).Nodup := by
  rw [keys_mapSet]
  by_cases hmem : t.filePath ∈ T.map M3UTrack.filePath
  · rwa [if_pos hmem]
  · rw [if_neg hmem]
    simp [List.nodup_append, h, hmem]

theorem mapSet_of_not_mem {T : List M3UTrack} {t : M3UTrack}
    (h : t.filePath ∉ T.map M3UTrack.filePath) : mapSet T t = T ++ [t] := by
  induction T with
  | nil => rfl
  | cons u rest ih =>
    rw [mapSet, if_neg (fun hc => h (by simp [hc])), ih (fun hc => h (by simp [hc]))]
    rfl

theorem mem_insertAll {ts : List M3UTrack} :
    ∀ {T : List M3UTrack} {u : M3UTrack}, u ∈ insertAll T ts → u ∈ T ∨ u ∈ ts := by
  induction ts with
  | nil => intro T u h; exact Or.inl h
  | cons t ts ih =>
    intro T u h
    rcases ih (show u ∈ insertAll (mapSet T t) ts from h) with h1 | h1
    · rcases mem_mapSet h1 with h2 | h2
      · exact Or.inl h2
      · exact Or.inr (h2 ▸ List.mem_cons_self _ _)
    · exact Or.inr (List.mem_cons_of_mem _ h1)

theorem nodupKeys_insertAll {ts : List M3UTrack} :
    ∀ {T : List M3UTrack}, (T.map M3UTrack.filePath).Nodup →
      ((insertAll T ts).map M3UTrack.filePath).Nodup := by
  induction ts with
  | nil => intro T h; exact h
  | cons t ts ih => intro T h; exact ih (nodupKeys_mapSet t h)

theorem lastPut_cons (t : M3UTrack) (ts : List M3UTrack) (k : List Char) :
    lastPut (t :: ts) k =
      orO (lastPut ts k) (if t.filePath = k then some t else none) := by
  rw [lastPut, List.reverse_cons, List.find?_append, lastPut]
  cases h : ts.reverse.find? (fun u => decide (u.filePath = k)) with
  | some v => rfl
  | none =>
    show List.find? (fun u => decide (u.filePath = k)) [t] =
      orO none (if t.filePath = k then some t else none)
    by_cases hk : t.filePath = k
    · rw [List.find?_cons_of_pos _ (by simpa using hk), if_pos hk]
      rfl
    · rw [List.find?_cons_of_neg _ (by simpa using hk), if_neg hk]
      rfl

theorem lastPut_append (as bs : List M3UTrack) (k : List Char) :
    lastPut (as ++ bs) k = orO (lastPut bs k) (lastPut as k) := by
  rw [lastPut, List.reverse_append, List.find?_append, lastPut, lastPut]
  cases h : bs.reverse.find? (fun u => decide (u.filePath = k)) with
  | some v => rfl
  | none => rfl

theorem lookup_insertAll {ts : List M3UTrack} :
    ∀ {T : List M3UTrack} (k : List Char),
      tableLookup (insertAll T ts) k = orO (lastPut ts k) (tableLookup T k) := by
  induction ts with
  | nil => intro T k; rfl
  | cons t ts ih =>
    intro T k
    rw [show insertAll T (t :: ts) = insertAll (mapSet T t) ts from rfl, ih,
      lookup_mapSet, lastPut_cons]
    cases h : lastPut ts k with
    | some v => rfl
    | none =>
      show (if k = t.filePath then some t else tableLookup T k) =
        orO (if t.filePath = k then some t else none) (tableLookup T k)
      by_cases hk : k = t.filePath
      · rw [if_pos hk, if_pos hk.symm]
        rfl
      · rw [if_neg hk, if_neg (fun hc => hk hc.symm)]
        rfl

theorem mem_keys_iff_lookup {T : List M3UTrack} {k : List Char} :
    k ∈ T.map M3UTrack.filePath ↔ (tableLookup T k).isSome := by
  rw [tableLookup, List.find?_isSome]
  constructor
  · intro h
    obtain ⟨u, hu, hk⟩ := List.mem_map.mp h
    exact ⟨u, hu, by simpa using hk⟩
  · intro ⟨u, hu, hk⟩
    exact List.mem_map.mpr ⟨u, hu, by simpa using hk⟩

theorem keys_insertAll_of_mem {ts : List M3UTrack} :
    ∀ {T : List M3UTrack}, (∀ t ∈ ts, t.filePath ∈ T.map M3UTrack.filePath) →
      (insertAll T ts).map M3UTrack.filePath = T.map M3UTrack.filePath := by
  induction ts with
  | nil => intro T _; rfl
  | cons t ts ih =>
    intro T h
    have hkeys : (mapSet T t).map M3UTrack.filePath = T.map M3UTrack.filePath := by
      rw [keys_mapSet, if_pos (h t (List.mem_cons_self _ _))]
    rw [show insertAll T (t :: ts) = insertAll (mapSet T t) ts from rfl,
      ih (fun u hu => hkeys ▸ h u (List.mem_cons_of_mem _ hu)), hkeys]

theorem insertAll_fresh {ts : List M3UTrack} :
    ∀ {T : List M3UTrack}, (∀ t ∈ ts, t.filePath ∉ T.map M3UTrack.filePath) →
      (ts.map M3UTrack.filePath).Nodup → insertAll T ts = T ++ ts := by
  induction ts with
  | nil => intro T _ _; simp [insertAll]
  | cons t ts ih =>
    intro T hfresh hnodup
    have hnodup' : (t.filePath :: ts.map M3UTrack.filePath).Nodup := by simpa using hnodup
    have hset : mapSet T t = T ++ [t] :=
      mapSet_of_not_mem (hfresh t (List.mem_cons_self _ _))
    rw [show insertAll T (t :: ts) = insertAll (mapSet T t) ts from rfl, hset,
      ih ?fresh hnodup'.of_cons, List.append_assoc]
    case fresh =>
      intro u hu hc
      rw [List.map_append] at hc
      rcases List.mem_append.mp hc with h1 | h1
      · exact hfresh u (List.mem_cons_of_mem _ hu) h1
      · simp only [List.map_cons, List.map_nil, List.mem_singleton] at h1
        exact (List.nodup_cons.mp hnodup').1
          (h1 ▸ List.mem_map_of_mem M3UTrack.filePath hu)
    rfl

theorem tableLookup_eq_none_of_not_mem {T : List M3UTrack} {k : List Char}
    (h : k ∉ T.map M3UTrack.filePath) : tableLookup T k = none := by
  cases hl : tableLookup T k with
  | none => rfl
  | some v => exact absurd (mem_keys_iff_lookup.mpr (by rw [hl]; rfl)) h

theorem table_ext :
    ∀ {T U : List M3UTrack}, (T.map M3UTrack.filePath).Nodup →
      (U.map M3UTrack.filePath).Nodup →
      T.map M3UTrack.filePath = U.map M3UTrack.filePath →
      (∀ k, tableLookup T k = tableLookup U k) → T = U := by
  intro T
  induction T with
  | nil =>
    intro U _ _ hkeys _
    have h2 : List.map M3UTrack.filePath U = [] := by simpa using hkeys.symm
    exact (List.map_eq_nil_iff.mp h2).symm
  | cons t T' ih =>
    intro U hT hU hkeys hlook
    cases U with
    | nil => simp at hkeys
    | cons u U' =>
      simp only [List.map_cons, List.cons.injEq] at hkeys
      obtain ⟨hfp, htails⟩ := hkeys
      have htu : t = u := by
        have h1 := hlook t.filePath
        rw [tableLookup_cons, if_pos rfl, tableLookup_cons, if_pos hfp.symm] at h1
        exact Option.some.inj h1
      subst htu
      have hT' := (List.nodup_cons.mp hT)
      have hU' := (List.nodup_cons.mp hU)
      refine congrArg (t :: ·) (ih hT'.2 hU'.2 htails ?_)
      intro k
      by_cases hk : k = t.filePath
      · subst hk
        rw [tableLookup_eq_none_of_not_mem hT'.1,
          tableLookup_eq_none_of_not_mem hU'.1]
      · have h1 := hlook k
        rwa [tableLookup_cons, if_neg (fun hc => hk hc.symm), tableLookup_cons,
          if_neg (fun hc => hk hc.symm)] at h1

theorem orO_none_right (a : Option M3UTrack) : orO a none = a := by
  cases a <;> rfl

/-- Parsing a merged text recovers exactly the merge's internal table. -/
theorem merge_parse (X Y : List Char) :
    parseM3UContent (mergeM3UContent X Y) =
      insertAll [] (parseM3UContent X ++ parseM3UContent Y) := by
  have hwf : ∀ t ∈ insertAll [] (parseM3UContent X ++ parseM3UContent Y), wfTrack t := by
    intro t ht
    rcases mem_insertAll ht with h | h
    · simp at h
    · rcases List.mem_append.mp h with h1 | h1
      · exact parseM3UContent_wf t h1
      · exact parseM3UContent_wf t h1
  exact parse_serializeTracks hwf

/-- The merged output holds at most one entry per raw path: its parsed
path list has no duplicate. -/
theorem merge_keys_nodup (X Y : List Char) :
    ((parseM3UContent (mergeM3UContent X Y)).map M3UTrack.filePath).Nodup := by
  rw [merge_parse]
  exact nodupKeys_insertAll (by simp)

theorem insertAll_self {T : List M3UTrack}
    (h : (T.map M3UTrack.filePath).Nodup) : insertAll [] T = T := by
  have h2 : insertAll [] T = [] ++ T :=
    insertAll_fresh (fun t _ hc => by simp at hc) h
  simpa using h2

/-- Re-inserting a batch whose keys are all present leaves the
table unchanged when every key already stores that batch's last write. -/
theorem merge_table_idem (pX pY : List M3UTrack) :
    insertAll [] (insertAll [] (pX ++ pY) ++ pY) = insertAll [] (pX ++ pY) := by
  have hnodup1 : ((insertAll [] (pX ++ pY)).map M3UTrack.filePath).Nodup :=
    nodupKeys_insertAll (by simp)
  have happ : insertAll [] (insertAll [] (pX ++ pY) ++ pY) =
      insertAll (insertAll [] (pX ++ pY)) pY := by
    rw [insertAll, List.foldl_append]
    rw [show List.foldl mapSet [] (insertAll [] (pX ++ pY)) =
      insertAll [] (insertAll [] (pX ++ pY)) from rfl, insertAll_self hnodup1]
    rfl
  rw [happ]
  refine table_ext (nodupKeys_insertAll hnodup1) hnodup1 ?keys ?looks
  case keys =>
    refine keys_insertAll_of_mem ?_
    intro t ht
    rw [mem_keys_iff_lookup, lookup_insertAll, lastPut_append, tableLookup_nil,
      orO_none_right]
    have hsome : (lastPut pY t.filePath).isSome := by
      rw [lastPut, List.find?_isSome]
      exact ⟨t, by simp [ht], by simp⟩
    obtain ⟨v, hv⟩ := Option.isSome_iff_exists.mp hsome
    rw [hv]
    rfl
  case looks =>
    intro k
    rw [lookup_insertAll, lookup_insertAll, lastPut_append, tableLookup_nil,
      orO_none_right]
    cases hp : lastPut pY k <;> rfl

/-- Idempotence at parse level: merging the same new content twice gives
the same parsed entries as merging it once. -/
theorem merge_idem_parse (X Y : List Char) :
    parseM3UContent (mergeM3UContent (mergeM3UContent X Y) Y) =
      parseM3UContent (mergeM3UContent X Y) := by
  rw [merge_parse (mergeM3UContent X Y) Y, merge_parse X Y]
  exact merge_table_idem _ _

/-! ## Behaviour of the best-score matcher loop -/

theorem minScore_pos : (0 : ℚ) < mkRat 3 5 := by decide

theorem minScore_eq : mkRat 3 5 = (3 : ℚ) / 5 := by
  rw [Rat.mkRat_eq_div]
  norm_num

theorem findBestMatchLoop_isSome (nt : List Char) :
    ∀ (files : List MP3File) (p : List Char) (s : ℚ),
      (findBestMatchLoop nt files (some (p, s)) s).isSome := by
  intro files
  induction files with
  | nil => intro p s; rfl
  | cons f fs ih =>
    intro p s
    simp only [findBestMatchLoop]
    by_cases hc : s < calculateMatchScore nt f.normalizedName ∧
        mkRat 3 5 ≤ calculateMatchScore nt f.normalizedName
    · rw [if_pos hc]
      exact ih _ _
    · rw [if_neg hc]
      exact ih _ _

theorem findBestMatchLoop_some_spec (nt : List Char) :
    ∀ (files : List MP3File) (p : List Char) (s : ℚ), mkRat 3 5 ≤ s →
      ∀ p' s', findBestMatchLoop nt files (some (p, s)) s = some (p', s') →
        (p' = p ∧ s' = s ∧ ∀ g ∈ files, calculateMatchScore nt g.normalizedName ≤ s) ∨
        (∃ pre f post, files = pre ++ f :: post ∧ p' = f.path ∧
          s' = calculateMatchScore nt f.normalizedName ∧ s < s' ∧
          (∀ g ∈ pre, calculateMatchScore nt g.normalizedName < s') ∧
          (∀ g ∈ post, calculateMatchScore nt g.normalizedName ≤ s')) := by
  intro files
  induction files with
  | nil =>
    intro p s _ p' s' h
    simp only [findBestMatchLoop, Option.some.injEq, Prod.mk.injEq] at h
    exact Or.inl ⟨h.1.symm, h.2.symm, by simp⟩
  | cons f fs ih =>
    intro p s h35 p' s' h
    simp only [findBestMatchLoop] at h
    by_cases hlt : s < calculateMatchScore nt f.normalizedName
    · rw [if_pos ⟨hlt, h35.trans hlt.le⟩] at h
      rcases ih f.path (calculateMatchScore nt f.normalizedName) (h35.trans hlt.le) p' s' h with
        ⟨hp', hs', hall⟩ | ⟨pre', f', post', heq, hp', hs', hlt', hpre', hpost'⟩
      · refine Or.inr ⟨[], f, fs, rfl, hp', hs', hs' ▸ hlt, by simp, ?_⟩
        intro g hg
        exact hs' ▸ hall g hg
      · refine Or.inr ⟨f :: pre', f', post', by rw [heq]; rfl, hp', hs',
          hlt.trans hlt', ?_, hpost'⟩
        intro g hg
        rcases List.mem_cons.mp hg with h1 | h1
        · exact h1 ▸ hlt'
        · exact hpre' g h1
    · rw [if_neg (fun hc => hlt hc.1)] at h
      rcases ih p s h35 p' s' h with
        ⟨hp', hs', hall⟩ | ⟨pre', f', post', heq, hp', hs', hlt', hpre', hpost'⟩
      · refine Or.inl ⟨hp', hs', ?_⟩
        intro g hg
        rcases List.mem_cons.mp hg with h1 | h1
        · exact h1 ▸ (not_lt.mp hlt)
        · exact hall g h1
      · refine Or.inr ⟨f :: pre', f', post', by rw [heq]; rfl, hp', hs', hlt', ?_, hpost'⟩
        intro g hg
        rcases List.mem_cons.mp hg with h1 | h1
        · exact h1 ▸ ((not_lt.mp hlt).trans_lt hlt')
        · exact hpre' g h1

theorem findBestMatchLoop_none_iff (nt : List Char) :
    ∀ files : List MP3File, findBestMatchLoop nt files none 0 = none ↔
      ∀ f ∈ files, calculateMatchScore nt f.normalizedName < mkRat 3 5 := by
  intro files
  induction files with
  | nil => simp [findBestMatchLoop]
  | cons f fs ih =>
    simp only [findBestMatchLoop]
    by_cases hge : mkRat 3 5 ≤ calculateMatchScore nt f.normalizedName
    · rw [if_pos ⟨minScore_pos.trans_le hge, hge⟩]
      constructor
      · intro h
        have := findBestMatchLoop_isSome nt fs f.path (calculateMatchScore nt f.normalizedName)
        rw [h] at this
        cases this
      · intro h
        exact absurd (h f (List.mem_cons_self _ _)) (not_lt.mpr hge)
    · rw [if_neg (fun hc => hge hc.2), ih]
      constructor
      · intro h g hg
        rcases List.mem_cons.mp hg with h1 | h1
        · exact h1 ▸ (not_le.mp hge)
        · exact h g h1
      · intro h g hg
        exact h g (List.mem_cons_of_mem _ hg)

theorem findBestMatchLoop_some_from_none (nt : List Char) :
    ∀ (files : List MP3File) (p' : List Char) (s' : ℚ),
      findBestMatchLoop nt files none 0 = some (p', s') →
      ∃ pre f post, files = pre ++ f :: post ∧ p' = f.path ∧
        s' = calculateMatchScore nt f.normalizedName ∧ mkRat 3 5 ≤ s' ∧
        (∀ g ∈ pre, calculateMatchScore nt g.normalizedName < s') ∧
        (∀ g ∈ post, calculateMatchScore nt g.normalizedName ≤ s') := by
  intro files
  induction files with
  | nil => intro p' s' h; cases h
  | cons f fs ih =>
    intro p' s' h
    simp only [findBestMatchLoop] at h
    by_cases hge : mkRat 3 5 ≤ calculateMatchScore nt f.normalizedName
    · rw [if_pos ⟨minScore_pos.trans_le hge, hge⟩] at h
      rcases findBestMatchLoop_some_spec nt fs f.path _ hge p' s' h with
        ⟨hp', hs', hall⟩ | ⟨pre', f', post', heq, hp', hs', hlt', hpre', hpost'⟩
      · exact ⟨[], f, fs, rfl, hp', hs', hs' ▸ hge, by simp, fun g hg => hs' ▸ hall g hg⟩
      · refine ⟨f :: pre', f', post', by rw [heq]; rfl, hp', hs', hge.trans hlt'.le, ?_, hpost'⟩
        intro g hg
        rcases List.mem_cons.mp hg with h1 | h1
        · exact h1 ▸ hlt'
        · exact hpre' g h1
    · rw [if_neg (fun hc => hge hc.2)] at h
      obtain ⟨pre', f', post', heq, hp', hs', h35, hpre', hpost'⟩ := ih p' s' h
      refine ⟨f :: pre', f', post', by rw [heq]; rfl, hp', hs', h35, ?_, hpost'⟩
      intro g hg
      rcases List.mem_cons.mp hg with h1 | h1
      · exact h1 ▸ ((not_le.mp hge).trans_le h35)
      · exact hpre' g h1

/-- Full characterization of `findBestMatch`: `none` exactly when every
file scores below the 0.6 threshold; otherwise the earliest file
attaining the maximum score, with that score. -/
theorem findBestMatch_spec (track : SpotifyTrack) (files : List MP3File) :
    (findBestMatch track files = none ↔
      ∀ f ∈ files, calculateMatchScore (normalizeTrackInfo track) f.normalizedName < 3 / 5) ∧
    (∀ p' s', findBestMatch track files = some (p', s') →
      ∃ pre f post, files = pre ++ f :: post ∧ p' = f.path ∧
        s' = calculateMatchScore (normalizeTrackInfo track) f.normalizedName ∧
        (3 : ℚ) / 5 ≤ s' ∧
        (∀ g ∈ pre, calculateMatchScore (normalizeTrackInfo track) g.normalizedName < s') ∧
        (∀ g ∈ post, calculateMatchScore (normalizeTrackInfo track) g.normalizedName ≤ s')) := by
  constructor
  · rw [← minScore_eq]
    exact findBestMatchLoop_none_iff (normalizeTrackInfo track) files
  · intro p' s' h
    rw [← minScore_eq]
    exact findBestMatchLoop_some_from_none (normalizeTrackInfo track) files p' s' h

/-! ## Properties of the normalizer and scorer -/

theorem isWordMatch_self (w : List Char) : isWordMatch w w = true := by
  rw [isWordMatch, if_pos rfl]

theorem mkRat_three_ten : mkRat 3 10 = (3 : ℚ) / 10 := by
  rw [Rat.mkRat_eq_div]
  norm_num

/-- Reflexivity of the scorer on strings with at least one surviving
token: every token matches itself, the base ratio is 1, and the
exact-equality bonus caps the score at exactly 1. -/
theorem calculateMatchScore_self (a : List Char) (h : tokenize a ≠ []) :
    calculateMatchScore a a = 1 := by
  have hlen0 : (tokenize a).length ≠ 0 := fun hc => h (List.length_eq_zero.mp hc)
  simp only [calculateMatchScore]
  rw [if_neg (by simp [hlen0]), List.filter_eq_self.mpr ?allmatch]
  case allmatch =>
    intro tw htw
    exact List.any_eq_true.mpr ⟨tw, htw, isWordMatch_self tw⟩
  rw [if_pos trivial, ratDiv_eq, div_self (by exact_mod_cast hlen0), ratAdd_eq,
    mkRat_three_ten, capAtOne, if_pos (by norm_num)]

theorem mem_collapseWsAux {c : Char} :
    ∀ {l : List Char} {b : Bool}, c ∈ collapseWsAux b l →
      c = ' ' ∨ (c ∈ l ∧ c.isWhitespace = false) := by
  intro l
  induction l with
  | nil => intro b h; simp [collapseWsAux] at h
  | cons d ds ih =>
    intro b h
    rw [collapseWsAux] at h
    by_cases hd : d.isWhitespace
    · rw [if_pos hd] at h
      by_cases hb : b
      · rw [if_pos hb] at h
        rcases ih h with h1 | ⟨h1, h2⟩
        · exact Or.inl h1
        · exact Or.inr ⟨List.mem_cons_of_mem _ h1, h2⟩
      · rw [if_neg hb] at h
        rcases List.mem_cons.mp h with h1 | h1
        · exact Or.inl h1
        · rcases ih h1 with h2 | ⟨h2, h3⟩
          · exact Or.inl h2
          · exact Or.inr ⟨List.mem_cons_of_mem _ h2, h3⟩
    · rw [if_neg hd] at h
      rcases List.mem_cons.mp h with h1 | h1
      · exact Or.inr ⟨h1 ▸ List.mem_cons_self _ _, h1 ▸ (by simpa using hd)⟩
      · rcases ih h1 with h2 | ⟨h2, h3⟩
        · exact Or.inl h2
        · exact Or.inr ⟨List.mem_cons_of_mem _ h2, h3⟩

/-- Any character surviving the shared normalization tail is an ASCII
alphanumeric, an underscore, or the single space. -/
theorem mem_normalizeAfterLower {c : Char} {s : List Char}
    (h : c ∈ normalizeAfterLower s) :
    c.isAlpha = true ∨ c.isDigit = true ∨ c = '_' ∨ c = ' ' := by
  unfold normalizeAfterLower at h
  rcases mem_collapseWsAux (mem_trimLine h) with h1 | ⟨h1, hws⟩
  · exact Or.inr (Or.inr (Or.inr h1))
  · have h2 := (List.mem_filter.mp h1).2
    rw [hws, Bool.or_false, wordChar] at h2
    rcases Bool.or_eq_true_iff.mp h2 with h3 | h3
    · rcases Bool.or_eq_true_iff.mp (by simpa [Char.isAlphanum] using h3) with h4 | h4
      · exact Or.inl h4
      · exact Or.inr (Or.inl h4)
    · exact Or.inr (Or.inr (Or.inl (by simpa using h3)))

/-- Stripping behaviour of the filename normalizer: a name ending in a
case-insensitive `.mp3` is normalized exactly as its stem (lower-cased,
then through the shared pipeline). -/
theorem normalizeFileName_strips_mp3 (stem ext : List Char)
    (hext : ext.map Char.toLower = mp3Suffix) :
    normalizeFileName (stem ++ ext) = normalizeAfterLower (stem.map Char.toLower) := by
  unfold normalizeFileName
  rw [List.map_append, hext, removeMp3Suffix,
    if_pos ⟨stem.map Char.toLower, rfl⟩]
  have hlen : (stem.map Char.toLower ++ mp3Suffix).length - 4 =
      (stem.map Char.toLower).length := by
    rw [List.length_append, show mp3Suffix.length = 4 from by decide,
      Nat.add_sub_cancel]
  rw [hlen, List.take_left]

/-! ## Per-record facts for the track matcher -/

theorem map_zip_self (F : SpotifyTrack → LocalTrackMatch) :
    ∀ tracks : List SpotifyTrack,
      (tracks.map F).zip tracks = tracks.map (fun t => (F t, t))
  | [] => rfl
  | t :: ts => by
    rw [List.map_cons, List.map_cons, List.zip_cons_cons, map_zip_self F ts]

theorem trackMatchRecord_unmatched_iff (files : List MP3File) (t : SpotifyTrack) :
    ((trackMatchRecord files t).isMatched = false ∧
        (trackMatchRecord files t).localFilePath = none) ↔
      ∀ f ∈ files,
        calculateMatchScore (normalizeTrackInfo t) f.normalizedName < 3 / 5 := by
  rw [← (findBestMatch_spec t files).1]
  cases hm : findBestMatch t files with
  | none =>
    simp [trackMatchRecord, hm]
  | some v =>
    simp [trackMatchRecord, hm]

theorem trackMatchRecord_matched (files : List MP3File) (t : SpotifyTrack)
    (h : (trackMatchRecord files t).isMatched = true) :
    ∃ pre f post, files = pre ++ f :: post ∧
      (trackMatchRecord files t).localFilePath = some f.path ∧
      (trackMatchRecord files t).matchScore =
        some (calculateMatchScore (normalizeTrackInfo t) f.normalizedName) ∧
      (3 : ℚ) / 5 ≤ calculateMatchScore (normalizeTrackInfo t) f.normalizedName ∧
      (∀ g ∈ files, calculateMatchScore (normalizeTrackInfo t) g.normalizedName ≤
        calculateMatchScore (normalizeTrackInfo t) f.normalizedName) ∧
      (∀ g ∈ pre, calculateMatchScore (normalizeTrackInfo t) g.normalizedName <
        calculateMatchScore (normalizeTrackInfo t) f.normalizedName) := by
  cases hm : findBestMatch t files with
  | none => simp [trackMatchRecord, hm] at h
  | some v =>
    obtain ⟨p, s⟩ := v
    obtain ⟨pre, f, post, heq, hp, hs, h35, hpre, hpost⟩ :=
      (findBestMatch_spec t files).2 p s hm
    subst hs
    refine ⟨pre, f, post, heq, ?_, ?_, h35, ?_, hpre⟩
    · simp [trackMatchRecord, hm, hp]
    · simp [trackMatchRecord, hm]
    · intro g hg
      rw [heq] at hg
      rcases List.mem_append.mp hg with h1 | h1
      · exact (hpre g h1).le
      · rcases List.mem_cons.mp h1 with h2 | h2
        · exact h2 ▸ le_refl _
        · exact hpost g h2

/-! ## The claims -/

/-- C1, counterexample: `mergeM3UContent` keys its table by the raw path
string, so the same path written with a backslash and with a forward
slash survives as two entries of the merged output, refuting
separator-normalized deduplication. -/
theorem claim1_counterexample :
    (parseM3UContent (mergeM3UContent [] sepNewContent)).map
        (fun t => sepNormalize t.filePath) =
      ["dir/song.mp3".toList, "dir/song.mp3".toList] ∧
    ¬ ((parseM3UContent (mergeM3UContent [] sepNewContent)).map
        (fun t => sepNormalize t.filePath)).Nodup :=
  ⟨by decide, by decide⟩

/-- C1, amended: in `mergeM3UContent`, two entries are the same entry
exactly when their raw path strings are equal (case- and
separator-sensitive): the merged output contains at most one entry per
exact path, the dedupe key being the unmodified path line. -/
theorem claim1_merge_unique_raw_paths (X Y : List Char) :
    ((parseM3UContent (mergeM3UContent X Y)).map M3UTrack.filePath).Nodup :=
  merge_keys_nodup X Y

/-- C2, counterexample: the matcher has no exact/substring mode.  On a
file whose normalized name is a strict substring of the normalized track
string, the spec's exact/substring strategy accepts at score 0.8, but
the only implemented matcher (`findBestMatch`, identical in both source
copies and independent of any configuration) rejects, because the
best-score gate 0.6 is not reached. -/
theorem claim2_counterexample :
    findBestMatch altTrack [altFile] = none ∧
    exactOrSubstringMatch (normalizeTrackInfo altTrack) [altFile] =
      some (altFile.path, mkRat 4 5) ∧
    mkRat 4 5 = (4 : ℚ) / 5 := by
  refine ⟨by decide, by decide, ?_⟩
  rw [Rat.mkRat_eq_div]
  norm_num

/-- C2, amended: the track matcher implements only the best-score
strategy; every accepted match carries a score of at least the 0.6
minimum, so no configuration accepts on the bare equality/substring
conditions without the minimum-score gate. -/
theorem claim2_best_score_only (track : SpotifyTrack) (files : List MP3File)
    (p : List Char) (s : ℚ) (h : findBestMatch track files = some (p, s)) :
    (3 : ℚ) / 5 ≤ s := by
  obtain ⟨pre, f, post, _, _, _, h35, _, _⟩ := (findBestMatch_spec track files).2 p s h
  exact h35

/-- C2, witness: a concrete accepted match, at score 1 ≥ 0.6. -/
theorem claim2_best_score_only_witness :
    findBestMatch exactTrack [exactFile] = some (exactFile.path, 1) ∧
    (3 : ℚ) / 5 ≤ 1 :=
  ⟨by decide, claim2_best_score_only exactTrack [exactFile] exactFile.path 1 (by decide)⟩

/-- C3: merge is idempotent under repeated application of the same new
content: parsing `merge(merge(X, Y), Y)` yields the same entry list as
parsing `merge(X, Y)`, for every existing text `X` and new text `Y`. -/
theorem claim3_merge_idempotent (X Y : List Char) :
    parseM3UContent (mergeM3UContent (mergeM3UContent X Y) Y) =
      parseM3UContent (mergeM3UContent X Y) :=
  merge_idem_parse X Y

/-- C4, counterexample: an entry list with pairwise distinct paths whose
serialization does not parse back to it — the path `#x` is re-read as a
comment, so the round trip loses the entry. -/
theorem claim4_counterexample :
    ([hashEntry].map M3UTrack.filePath).Nodup ∧
    parseM3UContent (serializeTracks [hashEntry]) = [] ∧
    parseM3UContent (serializeTracks [hashEntry]) ≠ [hashEntry] :=
  ⟨by decide, by decide, by decide⟩

/-- C4, amended: the serialize/parse round trip holds for every entry
list with pairwise distinct paths whose entries are well-formed: each
path is non-empty, whitespace-trimmed, newline-free and does not start
with `#`, and each extinf line is non-empty, trimmed, newline-free and
starts with `#EXTINF:`. -/
theorem claim4_roundtrip_wellformed (entries : List M3UTrack)
    (_hnodup : (entries.map M3UTrack.filePath).Nodup)
    (hwf : ∀ t ∈ entries, wfTrack t) :
    parseM3UContent (serializeTracks entries) = entries :=
  parse_serializeTracks hwf

/-- C4, witness: a concrete two-entry round trip. -/
theorem claim4_roundtrip_wellformed_witness :
    ((roundtripEntries.map M3UTrack.filePath).Nodup ∧
      ∀ t ∈ roundtripEntries, wfTrack t) ∧
    parseM3UContent (serializeTracks roundtripEntries) = roundtripEntries :=
  ⟨⟨by decide, by decide⟩,
    claim4_roundtrip_wellformed roundtripEntries (by decide) (by decide)⟩

/-- C5: `matchTracksToFiles` returns one record per input track in input
order; a record is unmatched (with absent path) exactly when no file
scores at least 0.6 against the track, and a matched record names a file
achieving the maximum score, earliest file winning ties (every earlier
file scores strictly less). -/
theorem claim5_matchTracks_best_score (tracks : List SpotifyTrack) (files : List MP3File) :
    (matchTracksToFiles tracks files).length = tracks.length ∧
    ∀ pr ∈ (matchTracksToFiles tracks files).zip tracks,
      pr.1.spotifyTrack = pr.2 ∧
      ((pr.1.isMatched = false ∧ pr.1.localFilePath = none) ↔
        ∀ f ∈ files,
          calculateMatchScore (normalizeTrackInfo pr.2) f.normalizedName < 3 / 5) ∧
      (pr.1.isMatched = true →
        ∃ pre f post, files = pre ++ f :: post ∧
          pr.1.localFilePath = some f.path ∧
          pr.1.matchScore =
            some (calculateMatchScore (normalizeTrackInfo pr.2) f.normalizedName) ∧
          (3 : ℚ) / 5 ≤ calculateMatchScore (normalizeTrackInfo pr.2) f.normalizedName ∧
          (∀ g ∈ files, calculateMatchScore (normalizeTrackInfo pr.2) g.normalizedName ≤
            calculateMatchScore (normalizeTrackInfo pr.2) f.normalizedName) ∧
          (∀ g ∈ pre, calculateMatchScore (normalizeTrackInfo pr.2) g.normalizedName <
            calculateMatchScore (normalizeTrackInfo pr.2) f.normalizedName)) := by
  constructor
  · rw [matchTracksToFiles, List.length_map]
  · intro pr hpr
    rw [matchTracksToFiles, map_zip_self] at hpr
    obtain ⟨t, _, hpr'⟩ := List.mem_map.mp hpr
    subst hpr'
    exact ⟨rfl, trackMatchRecord_unmatched_iff files t,
      fun h => trackMatchRecord_matched files t h⟩

/-- C6: the scorer is reflexive with value exactly 1 on any string with
at least one whitespace-delimited token longer than one character:
every token matches itself, and the exact-equality bonus caps at 1. -/
theorem claim6_score_self_one (a : List Char) (h : tokenize a ≠ []) :
    calculateMatchScore a a = 1 :=
  calculateMatchScore_self a h

/-- C6, witness: the two-letter string `ab`. -/
theorem claim6_score_self_one_witness :
    tokenize ("ab".toList) ≠ [] ∧
    calculateMatchScore ("ab".toList) ("ab".toList) = 1 :=
  ⟨by decide, claim6_score_self_one ("ab".toList) (by decide)⟩

/-- C7, counterexample: the regex class `\w` keeps the underscore, so
normalization does not strip every character that is neither
alphanumeric nor whitespace — `_a.mp3` normalizes to `_a`. -/
theorem claim7_counterexample :
    '_' ∈ normalizeFileName ("_a.mp3".toList) ∧
    ¬ ('_'.isAlpha = true ∨ '_'.isDigit = true ∨ '_' = ' ') :=
  ⟨by decide, by decide⟩

/-- C7, amended: with the default options, every character of a
normalized track string or file name is an ASCII letter, a digit, an
underscore, or a space. -/
theorem claim7_normalized_alphabet (track : SpotifyTrack) (filename : List Char)
    (c : Char) :
    (c ∈ normalizeTrackInfo track →
      (c.isAlpha = true ∨ c.isDigit = true ∨ c = '_' ∨ c = ' ')) ∧
    (c ∈ normalizeFileName filename →
      (c.isAlpha = true ∨ c.isDigit = true ∨ c = '_' ∨ c = ' ')) :=
  ⟨fun h => mem_normalizeAfterLower h, fun h => mem_normalizeAfterLower h⟩

/-- C8, counterexample: only `.mp3` is stripped.  A filename ending in
`.flac` keeps the extension's letters in its normalized name. -/
theorem claim8_counterexample :
    (".flac".toList <:+ "a.flac".toList) ∧
    normalizeFileName ("a.flac".toList) = "aflac".toList ∧
    ("flac".toList <:+: normalizeFileName ("a.flac".toList)) :=
  ⟨by decide, by decide, by decide⟩

/-- C8, amended: the filename variant removes one trailing `.mp3`
extension, case-insensitively, before the generic normalization: a name
`stem ++ ext` with `ext` lower-casing to `.mp3` normalizes exactly as
the lower-cased stem run through the shared pipeline.  The other four
audio extensions are not stripped. -/
theorem claim8_mp3_stripped (stem ext : List Char)
    (hext : ext.map Char.toLower = mp3Suffix) :
    normalizeFileName (stem ++ ext) = normalizeAfterLower (stem.map Char.toLower) :=
  normalizeFileName_strips_mp3 stem ext hext

/-- C8, witness: `Song.MP3` normalizes as the stem `Song`. -/
theorem claim8_mp3_stripped_witness :
    ((".MP3".toList).map Char.toLower = mp3Suffix) ∧
    normalizeFileName ("Song".toList ++ ".MP3".toList) =
      normalizeAfterLower (("Song".toList).map Char.toLower) :=
  ⟨by decide, claim8_mp3_stripped ("Song".toList) (".MP3".toList) (by decide)⟩

/-- C10: every entry produced by `parseM3UContent` has a non-empty,
trim-fixed file path that does not start with `#`, and its extinf line,
when present, starts with `#EXTINF:`. -/
theorem claim10_parse_invariant (content : List Char) (t : M3UTrack)
    (ht : t ∈ parseM3UContent content) :
    (t.filePath ≠ [] ∧ trimLine t.filePath = t.filePath ∧ ¬ ['#'] <+: t.filePath) ∧
    (∀ e, t.extinf = some e → extinfToken <+: e) := by
  obtain ⟨⟨⟨h1, h2, _⟩, h3⟩, hext⟩ := parseM3UContent_wf t ht
  exact ⟨⟨h1, h2, h3⟩, fun e he => (hext e he).2⟩

/-- C10, witness: the entry parsed from a concrete playlist text. -/
theorem claim10_parse_invariant_witness :
    demoParsedTrack ∈ parseM3UContent demoPlaylist ∧
    ((demoParsedTrack.filePath ≠ [] ∧
        trimLine demoParsedTrack.filePath = demoParsedTrack.filePath ∧
        ¬ ['#'] <+: demoParsedTrack.filePath) ∧
      (∀ e, demoParsedTrack.extinf = some e → extinfToken <+: e)) :=
  ⟨by decide, claim10_parse_invariant demoPlaylist demoParsedTrack (by decide)⟩

end SpotySync
